import Mathlib

/-!
Verification development for the `terminal-experiment` repository: a shallow
embedding of the s-expression layout engine (`src/sxfmt.rs`) and of the
structural cursor editor (`src/sexpr_view.rs`), together with theorems about
the properties stated in the specification.

Conventions of the embedding:
* Rust `String` is modelled as Lean `String`; `String::len` is modelled as the
  character count `String.length`.
* Rust functions that can panic (`unwrap`, `Vec::remove` / `Vec::insert` out of
  bounds, `unimplemented!()`, division by zero) are modelled as `Option`-valued
  functions, `none` marking the panic.
* `usize` values (child indices, lengths) are modelled as `Nat`.
-/

universe u

/-- The expression tree of `sxfmt.rs` (`enum PrettyExpr<T>`, lines 9-16):
`Atom` (editable text leaf), `Stat` (static text leaf), `Inline` / `Expand`
(two renderings of a list node), and `Style` (style wrapper). -/
inductive PrettyExpr (T : Type u) : Type u
  | Atom (s : String)
  | Stat (s : String)
  | Inline (xs : List (PrettyExpr T))
  | Expand (xs : List (PrettyExpr T))
  | Style (t : T) (x : PrettyExpr T)

namespace PrettyExpr

/-- `PrettyExpr::list` (sxfmt.rs 19-21): a fresh list node is `Inline`. -/
def list {T : Type u} (xs : List (PrettyExpr T)) : PrettyExpr T :=
  .Inline xs

/-- `PrettyExpr::is_atom` (sxfmt.rs 71-77). -/
def is_atom {T : Type u} : PrettyExpr T → Bool
  | .Atom _ => true
  | .Stat _ => true
  | .Inline _ => false
  | .Expand _ => false
  | .Style _ x => is_atom x

/-- `PrettyExpr::len` (sxfmt.rs 79-85): number of children of a list node,
0 for leaves, forwarded through `Style`. -/
def len {T : Type u} : PrettyExpr T → Nat
  | .Atom _ => 0
  | .Stat _ => 0
  | .Inline xs => xs.length
  | .Expand xs => xs.length
  | .Style _ x => len x

mutual

/-- `PrettyExpr::get` (sxfmt.rs 42-50): resolve a path of child indices.
The `Style` arm of the Rust `match` comes first and forwards the whole path
(style wrappers are transparent to addressing); the or-patterns of the Rust
code are expanded into separate arms, and the list lookup
`xs.get(*p).and_then(|x| x.get(rest))` is fused into the helper `get_list`
to keep the recursion structural. -/
def get {T : Type u} : PrettyExpr T → List Nat → Option (PrettyExpr T)
  | .Style _ x, path => get x path
  | .Atom s, [] => some (.Atom s)
  | .Stat s, [] => some (.Stat s)
  | .Inline xs, [] => some (.Inline xs)
  | .Expand xs, [] => some (.Expand xs)
  | .Inline xs, p :: rest => get_list xs p rest
  | .Expand xs, p :: rest => get_list xs p rest
  | .Atom _, _ :: _ => none
  | .Stat _, _ :: _ => none

/-- `xs.get(p).and_then(|x| x.get(rest))`: look up child `p`, then continue
resolving `rest` there; `none` when `p` is out of range. -/
def get_list {T : Type u} : List (PrettyExpr T) → Nat → List Nat → Option (PrettyExpr T)
  | [], _, _ => none
  | x :: _, 0, rest => get x rest
  | _ :: xs, p + 1, rest => get_list xs p rest

end

/-- `PrettyExpr::is_valid_path` (sxfmt.rs 38-40). -/
def is_valid_path {T : Type u} (e : PrettyExpr T) (path : List Nat) : Bool :=
  (get e path).isSome

mutual

/-- `PrettyExpr::inline_width` (sxfmt.rs 87-98).  The Rust function panics
with `unimplemented!()` on the `Expand` variant (the catch-all `_` arm);
a panicking computation is modelled as `none`. -/
def inline_width {T : Type u} : PrettyExpr T → Option Nat
  | .Atom s => some s.length
  | .Stat s => some s.length
  | .Inline xs =>
    match inline_width_sum xs with
    | some w => some (2 + w + (if xs.length < 2 then 0 else xs.length - 1))
    | none => none
  | .Expand _ => none
  | .Style _ x => inline_width x

/-- Sum of the inline widths of a list of children
(`xs.iter().map(PrettyExpr::inline_width).sum()` in sxfmt.rs 93); `none` as
soon as one child's width computation panics. -/
def inline_width_sum {T : Type u} : List (PrettyExpr T) → Option Nat
  | [] => some 0
  | x :: xs =>
    match inline_width x, inline_width_sum xs with
    | some a, some b => some (a + b)
    | _, _ => none

end

mutual

/-- `true` iff the tree contains no `Expand`-tagged list node.  This predicate
is ours (not in the source); it characterizes the inputs on which the width
computation of sxfmt.rs does not reach the `unimplemented!()` branch. -/
def expand_free {T : Type u} : PrettyExpr T → Bool
  | .Atom _ => true
  | .Stat _ => true
  | .Inline xs => expand_free_list xs
  | .Expand _ => false
  | .Style _ x => expand_free x

/-- `expand_free` on every element of a list of children. -/
def expand_free_list {T : Type u} : List (PrettyExpr T) → Bool
  | [] => true
  | x :: xs => expand_free x && expand_free_list xs

end

/-- Modelled from the spec: `PrettyExpr::get_text`, called by sexpr_view.rs
(lines 66, 84), is declared in a snapshot of the repository that is not under
src/.  Per the spec (§3) the editable text nodes are `Atom`s — a `Label`
(`Stat`) "is never edited" — so `get_text` yields the text of an `Atom` and
nothing for any other node. -/
def get_text {T : Type u} : PrettyExpr T → Option String
  | .Atom s => some s
  | _ => none

/-- Modelled from the spec: `PrettyExpr::is_empty_list`, called by
sexpr_view.rs line 69, is declared outside src/.  It recognizes a list node
with no children, forwarded through `Style` like `len` and `is_atom`. -/
def is_empty_list {T : Type u} : PrettyExpr T → Bool
  | .Inline xs => xs.isEmpty
  | .Expand xs => xs.isEmpty
  | .Style _ x => is_empty_list x
  | _ => false

/-- Modelled from the spec: `PrettyExpr::elements` / `elements_mut`, called by
sexpr_view.rs (lines 70, 104, 125, 150), are declared outside src/.  They
expose the child sequence of a list node (none for a leaf), forwarded through
`Style` like `len`. -/
def elements {T : Type u} : PrettyExpr T → Option (List (PrettyExpr T))
  | .Inline xs => some xs
  | .Expand xs => some xs
  | .Style _ x => elements x
  | _ => none

/-- Modelled from the spec: the variant `PrettyExpr::Placeholder` used by
sexpr_view.rs line 88 is declared outside src/.  The spec (§3, §4.3
`delete_char`) represents empty content as an empty list, so the placeholder
is modelled as the empty list with the tag a fresh list starts with. -/
def Placeholder {T : Type u} : PrettyExpr T := .Inline []

/-- The effect of mutating through `elements_mut`: the child sequence of a
list node is replaced in place, keeping its `Inline` / `Expand` tag. -/
def replace_elements {T : Type u} (ys : List (PrettyExpr T)) :
    PrettyExpr T → PrettyExpr T
  | .Inline _ => .Inline ys
  | .Expand _ => .Expand ys
  | x => x

mutual

/-- Modelled from the spec: `PrettyExpr::get_mut`, used throughout
sexpr_view.rs, is declared outside src/.  The spec (§3) requires it to
"always agree with `get`"; an assignment `*expr.get_mut(path).unwrap() = v`
is modelled functionally — `modify f e path` rebuilds `e` with `f` applied to
the node that `get e path` resolves, `Style` wrappers above it being
preserved, and is `none` exactly when `get e path` is (the `unwrap` panic). -/
def modify {T : Type u} (f : PrettyExpr T → PrettyExpr T) :
    PrettyExpr T → List Nat → Option (PrettyExpr T)
  | .Style s x, path =>
    match modify f x path with
    | some y => some (.Style s y)
    | none => none
  | .Atom s, [] => some (f (.Atom s))
  | .Stat s, [] => some (f (.Stat s))
  | .Inline xs, [] => some (f (.Inline xs))
  | .Expand xs, [] => some (f (.Expand xs))
  | .Inline xs, p :: rest =>
    match modify_list f xs p rest with
    | some ys => some (.Inline ys)
    | none => none
  | .Expand xs, p :: rest =>
    match modify_list f xs p rest with
    | some ys => some (.Expand ys)
    | none => none
  | .Atom _, _ :: _ => none
  | .Stat _, _ :: _ => none

/-- `modify` applied to the `p`-th element of a child list. -/
def modify_list {T : Type u} (f : PrettyExpr T → PrettyExpr T) :
    List (PrettyExpr T) → Nat → List Nat → Option (List (PrettyExpr T))
  | [], _, _ => none
  | x :: xs, 0, rest =>
    match modify f x rest with
    | some y => some (y :: xs)
    | none => none
  | x :: xs, p + 1, rest =>
    match modify_list f xs p rest with
    | some ys => some (x :: ys)
    | none => none

end

end PrettyExpr

/-- `as usize` applied to an `isize` value, on a 64-bit platform:
two's-complement reinterpretation (sexpr_view.rs 56). -/
def usize_of_isize (x : Int) : Nat :=
  if 0 ≤ x then x.toNat else (x + 2 ^ 64).toNat

/-- `struct SexprView` (sexpr_view.rs 6-12).  The `u16` viewport extents are
modelled as `Nat`; the cursor is an optional path. -/
structure SexprView (T : Type u) where
  expr : PrettyExpr T
  width : Nat
  height : Nat
  cursor : Option (List Nat)

namespace SexprView

/-- `SexprView::new` (sexpr_view.rs 15-22): the initial cursor is `[1]`. -/
def new {T : Type u} (expr : PrettyExpr T) (width height : Nat) : SexprView T :=
  { expr := expr, width := width, height := height, cursor := some [1] }

/-- `SexprView::move_cursor_out_of_list` (sexpr_view.rs 24-34). -/
def move_cursor_out_of_list {T : Type u} (v : SexprView T) : SexprView T :=
  match v.cursor with
  | none => v
  | some [] => { v with cursor := none }
  | some (i :: c) =>
    if PrettyExpr.is_valid_path v.expr (i :: c) then
      { v with cursor := some (i :: c).dropLast }
    else v

/-- `SexprView::move_cursor_into_list` (sexpr_view.rs 36-46): push index 0,
pop it again if the extended path does not resolve. -/
def move_cursor_into_list {T : Type u} (v : SexprView T) : SexprView T :=
  match v.cursor with
  | none => { v with cursor := some [] }
  | some c =>
    if PrettyExpr.is_valid_path v.expr (c ++ [0]) then
      { v with cursor := some (c ++ [0]) }
    else v

/-- `SexprView::move_cursor_in_list` (sexpr_view.rs 48-59): replace the final
cursor index `i` by `(i + dir + l) % l` where `l` is the parent's child count.
The `unwrap` on the parent lookup and the division by zero when `l = 0` are
panics (`none`); `%` is Rust's truncating remainder on `isize`. -/
def move_cursor_in_list {T : Type u} (v : SexprView T) (dir : Int) :
    Option (SexprView T) :=
  match v.cursor with
  | none => some { v with cursor := some [] }
  | some c =>
    match c.getLast? with
    | none => some v
    | some c_elem =>
      let p := c.dropLast
      match PrettyExpr.get v.expr p with
      | none => none
      | some par =>
        let l : Int := PrettyExpr.len par
        if l = 0 then none
        else
          some { v with
            cursor := some (p ++ [usize_of_isize (Int.tmod (c_elem + dir + l) l)]) }

/-- `SexprView::append_at_cursor` (sexpr_view.rs 61-77). -/
def append_at_cursor {T : Type u} (v : SexprView T) (post : String) :
    Option (SexprView T) :=
  match v.cursor with
  | none => some v
  | some c =>
    match PrettyExpr.get v.expr c with
    | none => none
    | some x =>
      match PrettyExpr.get_text x with
      | some text =>
        (PrettyExpr.modify (fun _ => .Atom (text ++ post)) v.expr c).map
          (fun e2 => { v with expr := e2 })
      | none =>
        if PrettyExpr.is_empty_list x then
          match PrettyExpr.modify
              (PrettyExpr.replace_elements [.Atom post]) v.expr c with
          | some e2 => some (move_cursor_into_list { v with expr := e2 })
          | none => none
        else some v

/-- `SexprView::delete_at_cursor` (sexpr_view.rs 79-95): drop the last
character of the addressed text; an emptied text becomes the placeholder. -/
def delete_at_cursor {T : Type u} (v : SexprView T) : Option (SexprView T) :=
  match v.cursor with
  | none => some v
  | some c =>
    match PrettyExpr.get v.expr c with
    | none => none
    | some x =>
      match PrettyExpr.get_text x with
      | some text =>
        let text2 := text.dropRight 1
        (PrettyExpr.modify
            (fun _ => if text2.isEmpty then PrettyExpr.Placeholder
                      else .Atom text2) v.expr c).map
          (fun e2 => { v with expr := e2 })
      | none => some v

/-- `SexprView::delete_cursor_element` (sexpr_view.rs 97-116).  `Vec::remove`
panics when the index is out of bounds, as does the `unwrap` on a parent that
is not a list. -/
def delete_cursor_element {T : Type u} (v : SexprView T) : Option (SexprView T) :=
  match v.cursor with
  | none => some v
  | some c =>
    match c.getLast? with
    | none => some v
    | some c_elem =>
    let c_list := c.dropLast
    match (PrettyExpr.get v.expr c_list).bind PrettyExpr.elements with
    | none => none
    | some xs =>
      if c_elem < xs.length then
        let xs2 := xs.eraseIdx c_elem
        match PrettyExpr.modify (PrettyExpr.replace_elements xs2) v.expr c_list with
        | some e2 =>
          if xs2.isEmpty then some { v with expr := e2, cursor := some c_list }
          else
            let cur2 := c_list ++ [min c_elem (xs2.length - 1)]
            some { v with expr := e2, cursor := some cur2 }
        | none => none
      else none

/-- `SexprView::insert_element_after_cursor` (sexpr_view.rs 118-132): insert a
fresh empty `Inline` list after the cursor's final index, then
`move_cursor_in_list(1)`.  `Vec::insert` panics when the index exceeds the
length. -/
def insert_element_after_cursor {T : Type u} (v : SexprView T) :
    Option (SexprView T) :=
  match v.cursor with
  | none => some v
  | some c =>
    match c.getLast? with
    | none => some v
    | some c_elem =>
    let c_list := c.dropLast
    match (PrettyExpr.get v.expr c_list).bind PrettyExpr.elements with
    | none => none
    | some xs =>
      if c_elem + 1 ≤ xs.length then
        match PrettyExpr.modify
            (PrettyExpr.replace_elements
              (xs.insertIdx (c_elem + 1) (.Inline []))) v.expr c_list with
        | some e2 => move_cursor_in_list { v with expr := e2 } 1
        | none => none
      else none

/-- `SexprView::wrap_cursor_in_list` (sexpr_view.rs 134-143): replace the
addressed node `y` by the single-child list `(y)`; the cursor is not moved. -/
def wrap_cursor_in_list {T : Type u} (v : SexprView T) : Option (SexprView T) :=
  match v.cursor with
  | none => some v
  | some c =>
    (PrettyExpr.modify (fun y => PrettyExpr.list [y]) v.expr c).map
      (fun e2 => { v with expr := e2 })

end SexprView

namespace PrettyExpr

/-- Recognizes a `Style` wrapper (used to state that `get` never yields a
wrapper node). -/
def is_style {T : Type u} : PrettyExpr T → Bool
  | .Style _ _ => true
  | _ => false

/-- Specification-side characterization of path resolution, transcribed from
the spec's words (§3 "Path"): a path addresses a node by zero-based child
indices from the root, skipping over `Styled` wrappers transparently; it fails
when an index is out of range or when it descends into an atomic/label node
(no rule applies there). -/
inductive SpecResolves {T : Type u} : PrettyExpr T → List Nat → PrettyExpr T → Prop
  | here (x : PrettyExpr T) (hx : is_style x = false) : SpecResolves x [] x
  | style (s : T) (x : PrettyExpr T) (p : List Nat) (y : PrettyExpr T)
      (h : SpecResolves x p y) : SpecResolves (.Style s x) p y
  | inline (xs : List (PrettyExpr T)) (i : Nat) (rest : List Nat)
      (y : PrettyExpr T) (hi : i < xs.length)
      (h : SpecResolves (xs.get ⟨i, hi⟩) rest y) :
      SpecResolves (.Inline xs) (i :: rest) y
  | expand (xs : List (PrettyExpr T)) (i : Nat) (rest : List Nat)
      (y : PrettyExpr T) (hi : i < xs.length)
      (h : SpecResolves (xs.get ⟨i, hi⟩) rest y) :
      SpecResolves (.Expand xs) (i :: rest) y

end PrettyExpr

/-- Modelled from the spec: the `Quotation` variant (§3) belongs to a snapshot
of the repository that is not under src/ (the `PrettyExpr` under src/ has no
such variant).  `QExpr` extends the tree with it: "a reserved single-child
wrapper marking quoted data; addressable like a one-element list but opaque to
sibling-insertion".  -/
inductive QExpr (T : Type u) : Type u
  | Atom (s : String)
  | Stat (s : String)
  | Inline (xs : List (QExpr T))
  | Expand (xs : List (QExpr T))
  | Style (t : T) (x : QExpr T)
  | Quotation (x : QExpr T)

namespace QExpr

mutual

/-- Modelled from the spec: path resolution in the presence of `Quotation`.
`Style` is transparent as in `PrettyExpr.get`; a `Quotation` is "addressable
like a one-element list" (§3), so it consumes one path segment, index 0
leading to its single child. -/
def qget {T : Type u} : QExpr T → List Nat → Option (QExpr T)
  | .Style _ x, path => qget x path
  | .Atom s, [] => some (.Atom s)
  | .Stat s, [] => some (.Stat s)
  | .Inline xs, [] => some (.Inline xs)
  | .Expand xs, [] => some (.Expand xs)
  | .Quotation x, [] => some (.Quotation x)
  | .Quotation x, 0 :: rest => qget x rest
  | .Quotation _, (_ + 1) :: _ => none
  | .Inline xs, p :: rest => qget_list xs p rest
  | .Expand xs, p :: rest => qget_list xs p rest
  | .Atom _, _ :: _ => none
  | .Stat _, _ :: _ => none

/-- Child lookup helper of `qget`, as in `PrettyExpr.get_list`. -/
def qget_list {T : Type u} : List (QExpr T) → Nat → List Nat → Option (QExpr T)
  | [], _, _ => none
  | x :: _, 0, rest => qget x rest
  | _ :: xs, p + 1, rest => qget_list xs p rest

end

/-- Modelled from the spec: the child sequence of a list node; a `Quotation`
is "opaque to sibling-insertion" (§3), hence exposes no splice-able child
sequence. -/
def qelements {T : Type u} : QExpr T → Option (List (QExpr T))
  | .Inline xs => some xs
  | .Expand xs => some xs
  | .Style _ x => qelements x
  | _ => none

/-- Recognizes a `Quotation` node. -/
def is_quotation {T : Type u} : QExpr T → Bool
  | .Quotation _ => true
  | _ => false

/-- Replace the child sequence of a list node, keeping its tag
(the `QExpr` counterpart of `PrettyExpr.replace_elements`). -/
def qreplace_elements {T : Type u} (ys : List (QExpr T)) : QExpr T → QExpr T
  | .Inline _ => .Inline ys
  | .Expand _ => .Expand ys
  | x => x

mutual

/-- Modelled from the spec: functional mutation through `get_mut` on trees
with `Quotation` nodes, mirroring `PrettyExpr.modify`. -/
def qmodify {T : Type u} (f : QExpr T → QExpr T) :
    QExpr T → List Nat → Option (QExpr T)
  | .Style s x, path =>
    match qmodify f x path with
    | some y => some (.Style s y)
    | none => none
  | .Atom s, [] => some (f (.Atom s))
  | .Stat s, [] => some (f (.Stat s))
  | .Inline xs, [] => some (f (.Inline xs))
  | .Expand xs, [] => some (f (.Expand xs))
  | .Quotation x, [] => some (f (.Quotation x))
  | .Quotation x, 0 :: rest =>
    match qmodify f x rest with
    | some y => some (.Quotation y)
    | none => none
  | .Quotation _, (_ + 1) :: _ => none
  | .Inline xs, p :: rest =>
    match qmodify_list f xs p rest with
    | some ys => some (.Inline ys)
    | none => none
  | .Expand xs, p :: rest =>
    match qmodify_list f xs p rest with
    | some ys => some (.Expand ys)
    | none => none
  | .Atom _, _ :: _ => none
  | .Stat _, _ :: _ => none

/-- `qmodify` applied to the `p`-th element of a child list. -/
def qmodify_list {T : Type u} (f : QExpr T → QExpr T) :
    List (QExpr T) → Nat → List Nat → Option (List (QExpr T))
  | [], _, _ => none
  | x :: xs, 0, rest =>
    match qmodify f x rest with
    | some y => some (y :: xs)
    | none => none
  | x :: xs, p + 1, rest =>
    match qmodify_list f xs p rest with
    | some ys => some (x :: ys)
    | none => none

end

end QExpr

/-- Modelled from the spec: an editor view over a tree with `Quotation` nodes
(the viewport extents play no role in the editing operations). -/
structure QSexprView (T : Type u) where
  expr : QExpr T
  cursor : Option (List Nat)

/-- Modelled from the spec (§4.3 `insert_after`): "inserts a fresh empty-list
placeholder immediately after the cursor's position in its parent, then moves
the cursor onto it.  If the parent is a `Quotation`, the insertion target is
first shifted outward one level (a quotation is a single logical unit, not a
splice point) before retrying."  The retry is the recursive call with the
cursor shortened by one segment. -/
def QSexprView.insert_element_after_cursor {T : Type u} :
    QSexprView T → Option (QSexprView T) := fun v =>
  match hc : v.cursor with
  | none => some v
  | some c =>
    match hl : c.getLast? with
    | none => some v
    | some c_elem =>
    let c_list := c.dropLast
    match QExpr.qget v.expr c_list with
    | none => none
    | some par =>
      if QExpr.is_quotation par then
        QSexprView.insert_element_after_cursor { v with cursor := some c_list }
      else
        match QExpr.qelements par with
        | none => none
        | some xs =>
          if c_elem + 1 ≤ xs.length then
            match QExpr.qmodify
                (QExpr.qreplace_elements (xs.insertIdx (c_elem + 1) (.Inline [])))
                v.expr c_list with
            | some e2 => some { expr := e2, cursor := some (c_list ++ [c_elem + 1]) }
            | none => none
          else none
termination_by v => (match v.cursor with | some c => c.length + 1 | none => 0)
decreasing_by
  simp_wf
  simp [hc]
  cases c with
  | nil => simp at hl
  | cons a as => simp

/-- `struct PrettyFormatter` (sxfmt.rs 101-105). -/
structure PrettyFormatter where
  max_code_width : Nat
  default_indent : Nat

/-- `PrettyFormatter::default` (sxfmt.rs 107-114). -/
def PrettyFormatter.mkDefault : PrettyFormatter :=
  { max_code_width := 15, default_indent := 2 }

mutual

/-- `PrettyFormatter::prepare` (sxfmt.rs 141-152): rewrite an `Inline` list
whose inline width exceeds `max_code_width` into an `Expand` list and prepare
its children; `Expand` nodes are returned unchanged.  The width guard
evaluates `inline_width`, whose `unimplemented!()` panic propagates (`none`). -/
def PrettyFormatter.prepare {T : Type u} (pf : PrettyFormatter) :
    PrettyExpr T → Option (PrettyExpr T)
  | .Atom s => some (.Atom s)
  | .Stat s => some (.Stat s)
  | .Inline xs =>
    match PrettyExpr.inline_width (.Inline xs) with
    | none => none
    | some w =>
      if w ≤ pf.max_code_width then some (.Inline xs)
      else
        match PrettyFormatter.prepare_list pf xs with
        | some ys => some (.Expand ys)
        | none => none
  | .Expand xs => some (.Expand xs)
  | .Style s x =>
    match PrettyFormatter.prepare pf x with
    | some y => some (.Style s y)
    | none => none

/-- `xs.into_iter().map(|x| self.prepare(x)).collect()` (sxfmt.rs 147). -/
def PrettyFormatter.prepare_list {T : Type u} (pf : PrettyFormatter) :
    List (PrettyExpr T) → Option (List (PrettyExpr T))
  | [] => some []
  | x :: xs =>
    match PrettyFormatter.prepare pf x, PrettyFormatter.prepare_list pf xs with
    | some y, some ys => some (y :: ys)
    | _, _ => none

end

/-- `Formatter::write_indent` (sxfmt.rs 258-261) as emitted by the
string-building `DisplayFormatter` (sxfmt.rs 275-285): a newline followed by
`level` spaces. -/
def write_indent (level : Nat) : String :=
  "\n" ++ String.mk (List.replicate level ' ')

mutual

/-- `PrettyFormatter::write` (sxfmt.rs 161-180) observed through the
`DisplayFormatter` sink (sxfmt.rs 275-285), whose `write` appends text and
whose style operations are no-ops; the emitted text is returned as a string.
No arm of the Rust function can panic, so the result is total. -/
def PrettyFormatter.write {T : Type u} (pf : PrettyFormatter) :
    PrettyExpr T → Nat → String
  | .Atom s, _ => s
  | .Stat s, _ => s
  | .Inline xs, _ => PrettyFormatter.write_inline pf xs
  | .Expand xs, il => PrettyFormatter.write_expanded pf xs il
  | .Style _ x, il => PrettyFormatter.write pf x il

/-- `PrettyFormatter::write_inline` (sxfmt.rs 182-200): children on one line,
separated by single spaces, between parentheses. -/
def PrettyFormatter.write_inline {T : Type u} (pf : PrettyFormatter)
    (xs : List (PrettyExpr T)) : String :=
  "(" ++
    (match xs with
     | [] => ""
     | [x] => PrettyFormatter.write pf x 0
     | x :: y :: ys =>
       PrettyFormatter.write pf x 0 ++
         PrettyFormatter.write_inline_rest pf (y :: ys)) ++ ")"

/-- The `for y in ys` loop of `write_inline` (sxfmt.rs 193-196). -/
def PrettyFormatter.write_inline_rest {T : Type u} (pf : PrettyFormatter) :
    List (PrettyExpr T) → String
  | [] => ""
  | y :: ys =>
    " " ++ PrettyFormatter.write pf y 0 ++ PrettyFormatter.write_inline_rest pf ys

/-- `PrettyFormatter::write_expanded` (sxfmt.rs 202-226): the indent level for
a multi-element list grows by `default_indent` after an atomic head and by 1
after a compound head; every child after the first is preceded by an indent
break. -/
def PrettyFormatter.write_expanded {T : Type u} (pf : PrettyFormatter)
    (xs : List (PrettyExpr T)) (il : Nat) : String :=
  "(" ++
    (match xs with
     | [] => ""
     | [x] => PrettyFormatter.write pf x il
     | x :: y :: ys =>
       let il2 := il + (if x.is_atom then pf.default_indent else 1)
       PrettyFormatter.write pf x il2 ++
         PrettyFormatter.write_expanded_rest pf (y :: ys) il2) ++ ")"

/-- The `for y in ys` loop of `write_expanded` (sxfmt.rs 219-222). -/
def PrettyFormatter.write_expanded_rest {T : Type u} (pf : PrettyFormatter) :
    List (PrettyExpr T) → Nat → String
  | [], _ => ""
  | y :: ys, il =>
    write_indent il ++ PrettyFormatter.write pf y il ++
      PrettyFormatter.write_expanded_rest pf ys il

end

namespace PrettyExpr

mutual

/-- `true` iff no text leaf of the tree contains a literal newline character.
This predicate is ours: `write` emits leaf text verbatim, so a newline can
appear in the output of an all-`Inline` tree only if it was already part of
some leaf's text. -/
def nl_free {T : Type u} : PrettyExpr T → Bool
  | .Atom s => decide (Char.ofNat 10 ∉ s.data)
  | .Stat s => decide (Char.ofNat 10 ∉ s.data)
  | .Inline xs => nl_free_list xs
  | .Expand xs => nl_free_list xs
  | .Style _ x => nl_free x

/-- `nl_free` on every element of a list of children. -/
def nl_free_list {T : Type u} : List (PrettyExpr T) → Bool
  | [] => true
  | x :: xs => nl_free x && nl_free_list xs

end

end PrettyExpr

/-- `n` successive applications of `move_cursor_in_list(1)` (sexpr_view.rs
48-59), chained through `Option` since each step can panic. -/
def SexprView.move_cursor_in_list_iter {T : Type u} :
    Nat → SexprView T → Option (SexprView T)
  | 0, v => some v
  | n + 1, v => (v.move_cursor_in_list 1).bind (move_cursor_in_list_iter n)

/-! ### Helper lemmas about path resolution and functional mutation -/

namespace PrettyExpr

theorem get_style {T : Type u} (t : T) (x : PrettyExpr T) (p : List Nat) :
    get (.Style t x) p = get x p := by
  simp [get]

theorem get_list_eq {T : Type u} :
    ∀ (xs : List (PrettyExpr T)) (i : Nat) (rest : List Nat),
      get_list xs i rest = (xs.get? i).bind (fun y => get y rest)
  | [], _, _ => by simp [get_list]
  | x :: xs, 0, rest => by simp [get_list]
  | x :: xs, i + 1, rest => by
      simpa [get_list] using get_list_eq xs i rest

theorem get_cons_inline {T : Type u} (xs : List (PrettyExpr T)) (i : Nat)
    (rest : List Nat) :
    get (.Inline xs) (i :: rest) = (xs.get? i).bind (fun y => get y rest) := by
  rw [show get (.Inline xs) (i :: rest) = get_list xs i rest from rfl, get_list_eq]

theorem get_cons_expand {T : Type u} (xs : List (PrettyExpr T)) (i : Nat)
    (rest : List Nat) :
    get (.Expand xs) (i :: rest) = (xs.get? i).bind (fun y => get y rest) := by
  rw [show get (.Expand xs) (i :: rest) = get_list xs i rest from rfl, get_list_eq]

theorem get_nil_isSome {T : Type u} : ∀ (e : PrettyExpr T), (get e []).isSome
  | .Atom s => by simp [get]
  | .Stat s => by simp [get]
  | .Inline xs => by simp [get]
  | .Expand xs => by simp [get]
  | .Style t x => by rw [get_style]; exact get_nil_isSome x

theorem get_not_style {T : Type u} :
    ∀ (e : PrettyExpr T) (p : List Nat) (x : PrettyExpr T),
      get e p = some x → is_style x = false
  | .Style t y, p, x => fun h =>
      get_not_style y p x (by rwa [get_style] at h)
  | .Atom s, [], x => fun h => by
      simp [get] at h; subst h; rfl
  | .Stat s, [], x => fun h => by
      simp [get] at h; subst h; rfl
  | .Inline xs, [], x => fun h => by
      simp [get] at h; subst h; rfl
  | .Expand xs, [], x => fun h => by
      simp [get] at h; subst h; rfl
  | .Atom s, _ :: _, x => fun h => by simp [get] at h
  | .Stat s, _ :: _, x => fun h => by simp [get] at h
  | .Inline xs, i :: rest, x => fun h => by
      rw [get_cons_inline] at h
      cases hy : xs.get? i with
      | none => rw [hy] at h; simp at h
      | some y =>
        rw [hy] at h; simp at h
        exact get_not_style y rest x h
  | .Expand xs, i :: rest, x => fun h => by
      rw [get_cons_expand] at h
      cases hy : xs.get? i with
      | none => rw [hy] at h; simp at h
      | some y =>
        rw [hy] at h; simp at h
        exact get_not_style y rest x h
termination_by e _ _ => sizeOf e
decreasing_by
  all_goals simp_wf
  all_goals first
    | omega
    | (have hm := List.sizeOf_lt_of_mem (List.get?_mem hy); omega)

theorem get_append {T : Type u} :
    ∀ (e : PrettyExpr T) (p q : List Nat),
      get e (p ++ q) = (get e p).bind (fun y => get y q)
  | .Style t x, p, q => by
      rw [get_style, get_style, get_append x p q]
  | .Atom s, [], q => by simp [get]
  | .Stat s, [], q => by simp [get]
  | .Inline xs, [], q => by simp [get]
  | .Expand xs, [], q => by simp [get]
  | .Atom s, _ :: _, q => by simp [get]
  | .Stat s, _ :: _, q => by simp [get]
  | .Inline xs, i :: rest, q => by
      rw [List.cons_append, get_cons_inline, get_cons_inline]
      cases hy : xs.get? i with
      | none => simp
      | some y => simpa using get_append y rest q
  | .Expand xs, i :: rest, q => by
      rw [List.cons_append, get_cons_expand, get_cons_expand]
      cases hy : xs.get? i with
      | none => simp
      | some y => simpa using get_append y rest q
termination_by e _ _ => sizeOf e
decreasing_by
  all_goals simp_wf
  all_goals first
    | omega
    | (have hm := List.sizeOf_lt_of_mem (List.get?_mem hy); omega)

theorem get_cons_of_elements {T : Type u} :
    ∀ (par : PrettyExpr T) (xs : List (PrettyExpr T)),
      elements par = some xs →
      ∀ (i : Nat) (rest : List Nat),
        get par (i :: rest) = (xs.get? i).bind (fun y => get y rest)
  | .Style t x, xs => fun h i rest => by
      rw [get_style]
      exact get_cons_of_elements x xs (by simpa [elements] using h) i rest
  | .Inline ys, xs => fun h i rest => by
      simp [elements] at h; subst h; exact get_cons_inline ys i rest
  | .Expand ys, xs => fun h i rest => by
      simp [elements] at h; subst h; exact get_cons_expand ys i rest
  | .Atom s, xs => fun h => by simp [elements] at h
  | .Stat s, xs => fun h => by simp [elements] at h

theorem len_of_elements {T : Type u} :
    ∀ (par : PrettyExpr T) (xs : List (PrettyExpr T)),
      elements par = some xs → len par = xs.length
  | .Style t x, xs => fun h => by
      simpa [len] using len_of_elements x xs (by simpa [elements] using h)
  | .Inline ys, xs => fun h => by simp [elements] at h; subst h; simp [len]
  | .Expand ys, xs => fun h => by simp [elements] at h; subst h; simp [len]
  | .Atom s, xs => fun h => by simp [elements] at h
  | .Stat s, xs => fun h => by simp [elements] at h

theorem elements_of_get_cons {T : Type u} :
    ∀ (par : PrettyExpr T) (i : Nat) (rest : List Nat) (x : PrettyExpr T),
      get par (i :: rest) = some x →
      ∃ xs y, elements par = some xs ∧ xs.get? i = some y ∧ get y rest = some x
  | .Style t e, i, rest, x => fun h => by
      obtain ⟨xs, y, h1, h2, h3⟩ :=
        elements_of_get_cons e i rest x (by rwa [get_style] at h)
      exact ⟨xs, y, by simpa [elements] using h1, h2, h3⟩
  | .Inline xs, i, rest, x => fun h => by
      rw [get_cons_inline] at h
      cases hy : xs.get? i with
      | none => rw [hy] at h; simp at h
      | some y =>
        rw [hy] at h; simp at h
        exact ⟨xs, y, by simp [elements], hy, h⟩
  | .Expand xs, i, rest, x => fun h => by
      rw [get_cons_expand] at h
      cases hy : xs.get? i with
      | none => rw [hy] at h; simp at h
      | some y =>
        rw [hy] at h; simp at h
        exact ⟨xs, y, by simp [elements], hy, h⟩
  | .Atom s, i, rest, x => fun h => by simp [get] at h
  | .Stat s, i, rest, x => fun h => by simp [get] at h

end PrettyExpr

namespace PrettyExpr

theorem modify_style {T : Type u} (f : PrettyExpr T → PrettyExpr T) (t : T)
    (x : PrettyExpr T) (p : List Nat) :
    modify f (.Style t x) p = (modify f x p).map (.Style t) := by
  cases h : modify f x p <;> simp [modify, h]

theorem modify_list_eq {T : Type u} (f : PrettyExpr T → PrettyExpr T) :
    ∀ (xs : List (PrettyExpr T)) (i : Nat) (rest : List Nat) (y : PrettyExpr T),
      xs.get? i = some y →
      modify_list f xs i rest = (modify f y rest).map (fun y2 => xs.set i y2)
  | [], i, rest, y => by simp
  | x :: xs, 0, rest, y => fun h => by
      rw [List.get?_cons_zero] at h
      injection h with h
      subst h
      cases h2 : modify f x rest <;> simp [modify_list, h2]
  | x :: xs, i + 1, rest, y => fun h => by
      rw [List.get?_cons_succ] at h
      rw [show modify_list f (x :: xs) (i + 1) rest =
            match modify_list f xs i rest with
            | some ys => some (x :: ys)
            | none => none from rfl]
      rw [modify_list_eq f xs i rest y h]
      cases h2 : modify f y rest <;> simp

theorem modify_spec {T : Type u} (f : PrettyExpr T → PrettyExpr T) :
    ∀ (e : PrettyExpr T) (p : List Nat) (x : PrettyExpr T),
      get e p = some x →
      ∃ e2, modify f e p = some e2 ∧ ∀ q, get e2 (p ++ q) = get (f x) q
  | .Style t y, p, x => fun h => by
      obtain ⟨e2, hm, hq⟩ := modify_spec f y p x (by rwa [get_style] at h)
      refine ⟨.Style t e2, ?_, ?_⟩
      · rw [modify_style, hm]; rfl
      · intro q; rw [get_style]; exact hq q
  | .Atom s, [], x => fun h => by
      simp [get] at h; subst h
      exact ⟨f (.Atom s), by simp [modify], fun q => by simp⟩
  | .Stat s, [], x => fun h => by
      simp [get] at h; subst h
      exact ⟨f (.Stat s), by simp [modify], fun q => by simp⟩
  | .Inline xs, [], x => fun h => by
      simp [get] at h; subst h
      exact ⟨f (.Inline xs), by simp [modify], fun q => by simp⟩
  | .Expand xs, [], x => fun h => by
      simp [get] at h; subst h
      exact ⟨f (.Expand xs), by simp [modify], fun q => by simp⟩
  | .Atom s, _ :: _, x => fun h => by simp [get] at h
  | .Stat s, _ :: _, x => fun h => by simp [get] at h
  | .Inline xs, i :: rest, x => fun h => by
      rw [get_cons_inline] at h
      cases hy : xs.get? i with
      | none => rw [hy] at h; simp at h
      | some y =>
        rw [hy] at h; simp at h
        obtain ⟨y2, hm, hq⟩ := modify_spec f y rest x h
        obtain ⟨hi, -⟩ := List.get?_eq_some.mp hy
        refine ⟨.Inline (xs.set i y2), ?_, ?_⟩
        · rw [show modify f (.Inline xs) (i :: rest) =
                match modify_list f xs i rest with
                | some ys => some (.Inline ys)
                | none => none from rfl]
          rw [modify_list_eq f xs i rest y hy, hm]
          rfl
        · intro q
          rw [List.cons_append, get_cons_inline]
          rw [List.get?_set_eq_of_lt y2 (by simpa using hi)]
          simpa using hq q
  | .Expand xs, i :: rest, x => fun h => by
      rw [get_cons_expand] at h
      cases hy : xs.get? i with
      | none => rw [hy] at h; simp at h
      | some y =>
        rw [hy] at h; simp at h
        obtain ⟨y2, hm, hq⟩ := modify_spec f y rest x h
        obtain ⟨hi, -⟩ := List.get?_eq_some.mp hy
        refine ⟨.Expand (xs.set i y2), ?_, ?_⟩
        · rw [show modify f (.Expand xs) (i :: rest) =
                match modify_list f xs i rest with
                | some ys => some (.Expand ys)
                | none => none from rfl]
          rw [modify_list_eq f xs i rest y hy, hm]
          rfl
        · intro q
          rw [List.cons_append, get_cons_expand]
          rw [List.get?_set_eq_of_lt y2 (by simpa using hi)]
          simpa using hq q
termination_by e _ _ => sizeOf e
decreasing_by
  all_goals simp_wf
  all_goals first
    | omega
    | (have hm := List.sizeOf_lt_of_mem (List.get?_mem hy); omega)

end PrettyExpr

/-! ### Width computation and `prepare` (claims C1, C2) -/

namespace PrettyExpr

mutual

theorem inline_width_isSome_eq_expand_free {T : Type u} :
    ∀ (e : PrettyExpr T), (inline_width e).isSome = expand_free e
  | .Atom s => by simp [inline_width, expand_free]
  | .Stat s => by simp [inline_width, expand_free]
  | .Expand xs => by simp [inline_width, expand_free]
  | .Style t x => by
      simpa [inline_width, expand_free] using inline_width_isSome_eq_expand_free x
  | .Inline xs => by
      have hl := inline_width_sum_isSome_eq_expand_free_list xs
      cases hs : inline_width_sum xs with
      | none => rw [hs] at hl; simp [inline_width, expand_free, hs, ← hl]
      | some w => rw [hs] at hl; simp [inline_width, expand_free, hs, ← hl]

theorem inline_width_sum_isSome_eq_expand_free_list {T : Type u} :
    ∀ (xs : List (PrettyExpr T)),
      (inline_width_sum xs).isSome = expand_free_list xs
  | [] => by simp [inline_width_sum, expand_free_list]
  | x :: xs => by
      have h1 := inline_width_isSome_eq_expand_free x
      have h2 := inline_width_sum_isSome_eq_expand_free_list xs
      cases hx : inline_width x <;> cases hxs : inline_width_sum xs <;>
        rw [hx] at h1 <;> rw [hxs] at h2 <;>
        simp [inline_width_sum, expand_free_list, hx, hxs, ← h1, ← h2]

end

end PrettyExpr

namespace PrettyFormatter

mutual

theorem prepare_isSome_of_expand_free {T : Type u} (pf : PrettyFormatter) :
    ∀ (e : PrettyExpr T), PrettyExpr.expand_free e = true → (pf.prepare e).isSome
  | .Atom s => fun _ => by simp [prepare]
  | .Stat s => fun _ => by simp [prepare]
  | .Expand xs => fun _ => by simp [prepare]
  | .Style t x => fun h => by
      have := pf.prepare_isSome_of_expand_free x
        (by simpa [PrettyExpr.expand_free] using h)
      cases hx : prepare pf x with
      | none => rw [hx] at this; simp at this
      | some y => simp [prepare, hx]
  | .Inline xs => fun h => by
      have hw : (PrettyExpr.inline_width (.Inline xs : PrettyExpr T)).isSome = true := by
        rw [PrettyExpr.inline_width_isSome_eq_expand_free]; exact h
      cases hwv : PrettyExpr.inline_width (.Inline xs : PrettyExpr T) with
      | none => rw [hwv] at hw; simp at hw
      | some w =>
        by_cases hle : w ≤ pf.max_code_width
        · simp [prepare, hwv, hle]
        · have hl := pf.prepare_list_isSome_of_expand_free_list xs
            (by simpa [PrettyExpr.expand_free] using h)
          cases hlv : prepare_list pf xs with
          | none => rw [hlv] at hl; simp at hl
          | some ys => simp [prepare, hwv, hle, hlv]

theorem prepare_list_isSome_of_expand_free_list {T : Type u} (pf : PrettyFormatter) :
    ∀ (xs : List (PrettyExpr T)),
      PrettyExpr.expand_free_list xs = true → (pf.prepare_list xs).isSome
  | [] => fun _ => by simp [prepare_list]
  | x :: xs => fun h => by
      rw [show PrettyExpr.expand_free_list (x :: xs)
            = (PrettyExpr.expand_free x && PrettyExpr.expand_free_list xs) from rfl,
          Bool.and_eq_true] at h
      have h1 := pf.prepare_isSome_of_expand_free x h.1
      have h2 := pf.prepare_list_isSome_of_expand_free_list xs h.2
      cases hx : prepare pf x with
      | none => rw [hx] at h1; simp at h1
      | some y =>
        cases hxs : prepare_list pf xs with
        | none => rw [hxs] at h2; simp at h2
        | some ys => simp [prepare_list, hx, hxs]

end

end PrettyFormatter

/-- C1 (amended): on every `Expand`-free tree — in particular on empty lists —
the width computation `inline_width` succeeds and `prepare` succeeds for every
formatter configuration; on a tree containing an `Expand`-tagged node,
`inline_width` reaches the `unimplemented!()` branch instead (`none`).
(`write` is total for every tree by construction: it is a plain function.) -/
theorem layout_total_on_expand_free {T : Type u} (pf : PrettyFormatter)
    (e : PrettyExpr T) :
    (PrettyExpr.expand_free e = true →
      (PrettyExpr.inline_width e).isSome ∧ (pf.prepare e).isSome) ∧
    (PrettyExpr.expand_free e = false → PrettyExpr.inline_width e = none) := by
  constructor
  · intro h
    refine ⟨?_, pf.prepare_isSome_of_expand_free e h⟩
    rw [PrettyExpr.inline_width_isSome_eq_expand_free]; exact h
  · intro h
    have := PrettyExpr.inline_width_isSome_eq_expand_free e
    rw [h] at this
    exact Option.not_isSome_iff_eq_none.mp (by simp [this])

/-- Witness for C1 at a concrete input: the empty list is `Expand`-free, has a
width, and `prepare` succeeds on it. -/
theorem layout_total_on_expand_free_witness :
    PrettyExpr.expand_free (.Inline ([] : List (PrettyExpr Unit))) = true ∧
    (PrettyExpr.inline_width (.Inline ([] : List (PrettyExpr Unit)))).isSome ∧
    (PrettyFormatter.mkDefault.prepare (.Inline ([] : List (PrettyExpr Unit)))).isSome :=
  ⟨rfl, (layout_total_on_expand_free PrettyFormatter.mkDefault _).1 rfl⟩

/-- Counterexample to C1 as stated: the layout engine is not total on trees
that contain `Expand`-tagged list nodes.  `inline_width` of an `Expand` node
hits the `unimplemented!()` branch (sxfmt.rs 96), and `prepare` of an `Inline`
node containing an `Expand` child panics while computing the width guard. -/
theorem layout_not_total_on_expand_counterexample :
    PrettyExpr.inline_width (.Expand ([] : List (PrettyExpr Unit))) = none ∧
    PrettyFormatter.mkDefault.prepare
      (.Inline [.Expand ([] : List (PrettyExpr Unit))]) = none :=
  ⟨rfl, rfl⟩

/-- C2: for every formatter configuration (any `max_code_width` and
`default_indent`) and every expression, `prepare` is idempotent: running it on
its own output returns that output unchanged (and a panicking run stays a
panicking run, so the composed computation equals the single one). -/
theorem prepare_idempotent {T : Type u} (pf : PrettyFormatter) :
    ∀ (e : PrettyExpr T), (pf.prepare e).bind pf.prepare = pf.prepare e
  | .Atom s => by simp [PrettyFormatter.prepare]
  | .Stat s => by simp [PrettyFormatter.prepare]
  | .Expand xs => by simp [PrettyFormatter.prepare]
  | .Style t x => by
      have ih := prepare_idempotent pf x
      cases hx : pf.prepare x with
      | none => simp [PrettyFormatter.prepare, hx]
      | some y =>
        rw [hx] at ih
        simp at ih
        simp [PrettyFormatter.prepare, hx, ih]
  | .Inline xs => by
      cases hw : PrettyExpr.inline_width (.Inline xs : PrettyExpr T) with
      | none => simp [PrettyFormatter.prepare, hw]
      | some w =>
        by_cases hle : w ≤ pf.max_code_width
        · simp [PrettyFormatter.prepare, hw, hle]
        · cases hl : pf.prepare_list xs with
          | none => simp [PrettyFormatter.prepare, hw, hle, hl]
          | some ys => simp [PrettyFormatter.prepare, hw, hle, hl]

/-! ### Line breaks in the rendered output (claim C3) -/

namespace PrettyExpr

theorem inline_width_sum_cons_isSome {T : Type u} {x : PrettyExpr T}
    {xs : List (PrettyExpr T)}
    (h : (inline_width_sum (x :: xs)).isSome = true) :
    (inline_width x).isSome = true ∧ (inline_width_sum xs).isSome = true := by
  cases hx : inline_width x <;> cases hxs : inline_width_sum xs <;>
    simp [inline_width_sum, hx, hxs] at h ⊢

theorem nl_free_list_cons {T : Type u} {x : PrettyExpr T}
    {xs : List (PrettyExpr T)} (h : nl_free_list (x :: xs) = true) :
    nl_free x = true ∧ nl_free_list xs = true := by
  rw [show nl_free_list (x :: xs) = (nl_free x && nl_free_list xs) from rfl,
      Bool.and_eq_true] at h
  exact h

theorem inline_width_inline_sum_isSome {T : Type u} {xs : List (PrettyExpr T)}
    (h : (inline_width (.Inline xs)).isSome = true) :
    (inline_width_sum xs).isSome = true := by
  cases hxs : inline_width_sum xs <;> simp [inline_width, hxs] at h ⊢

end PrettyExpr

namespace PrettyFormatter

mutual

theorem write_nl_free {T : Type u} (pf : PrettyFormatter) :
    ∀ (e : PrettyExpr T) (il : Nat),
      (PrettyExpr.inline_width e).isSome = true →
      PrettyExpr.nl_free e = true →
      '\n' ∉ (pf.write e il).data
  | .Atom s, il => fun _ hnl => by
      simpa [write, PrettyExpr.nl_free] using of_decide_eq_true hnl
  | .Stat s, il => fun _ hnl => by
      simpa [write, PrettyExpr.nl_free] using of_decide_eq_true hnl
  | .Expand xs, il => fun hw _ => by
      simp [PrettyExpr.inline_width] at hw
  | .Style t x, il => fun hw hnl => by
      rw [show pf.write (.Style t x) il = pf.write x il from rfl]
      exact pf.write_nl_free x il (by simpa [PrettyExpr.inline_width] using hw)
        (by simpa [PrettyExpr.nl_free] using hnl)
  | .Inline [], il => fun _ _ => by
      rw [show pf.write (.Inline ([] : List (PrettyExpr T))) il = "()" from rfl]
      decide
  | .Inline [x], il => fun hw hnl => by
      have hsum := PrettyExpr.inline_width_inline_sum_isSome hw
      obtain ⟨hx, -⟩ := PrettyExpr.inline_width_sum_cons_isSome hsum
      obtain ⟨hnx, -⟩ := PrettyExpr.nl_free_list_cons
        (by simpa [PrettyExpr.nl_free] using hnl)
      have ihx := pf.write_nl_free x 0 hx hnx
      rw [show pf.write (.Inline [x]) il = "(" ++ pf.write x 0 ++ ")" from rfl]
      simp only [String.data_append, List.mem_append]
      rintro ((h | h) | h)
      · simp at h
      · exact ihx h
      · simp at h
  | .Inline (x :: y :: ys), il => fun hw hnl => by
      have hsum := PrettyExpr.inline_width_inline_sum_isSome hw
      obtain ⟨hx, hrest⟩ := PrettyExpr.inline_width_sum_cons_isSome hsum
      obtain ⟨hnx, hnrest⟩ := PrettyExpr.nl_free_list_cons
        (by simpa [PrettyExpr.nl_free] using hnl)
      have ihx := pf.write_nl_free x 0 hx hnx
      have ihrest := pf.write_inline_rest_nl_free (y :: ys) hrest hnrest
      rw [show pf.write (.Inline (x :: y :: ys)) il
            = "(" ++ (pf.write x 0 ++ pf.write_inline_rest (y :: ys)) ++ ")" from rfl]
      simp only [String.data_append, List.mem_append]
      rintro ((h | (h | h)) | h)
      · simp at h
      · exact ihx h
      · exact ihrest h
      · simp at h

theorem write_inline_rest_nl_free {T : Type u} (pf : PrettyFormatter) :
    ∀ (ys : List (PrettyExpr T)),
      (PrettyExpr.inline_width_sum ys).isSome = true →
      PrettyExpr.nl_free_list ys = true →
      '\n' ∉ (pf.write_inline_rest ys).data
  | [] => fun _ _ => by
      rw [show pf.write_inline_rest ([] : List (PrettyExpr T)) = "" from rfl]
      decide
  | y :: ys => fun hsum hnl => by
      obtain ⟨hy, hrest⟩ := PrettyExpr.inline_width_sum_cons_isSome hsum
      obtain ⟨hny, hnrest⟩ := PrettyExpr.nl_free_list_cons hnl
      have ihy := pf.write_nl_free y 0 hy hny
      have ihrest := pf.write_inline_rest_nl_free ys hrest hnrest
      rw [show pf.write_inline_rest (y :: ys)
            = " " ++ pf.write y 0 ++ pf.write_inline_rest ys from rfl]
      simp only [String.data_append, List.mem_append]
      rintro ((h | h) | h)
      · simp at h
      · exact ihy h
      · exact ihrest h

end

theorem write_expanded_rest_eq_foldr {T : Type u} (pf : PrettyFormatter) :
    ∀ (ys : List (PrettyExpr T)) (il : Nat),
      pf.write_expanded_rest ys il =
        (ys.map (fun z => write_indent il ++ pf.write z il)).foldr (· ++ ·) ""
  | [], il => rfl
  | y :: ys, il => by
      rw [show pf.write_expanded_rest (y :: ys) il
            = write_indent il ++ pf.write y il ++ pf.write_expanded_rest ys il
          from rfl,
          pf.write_expanded_rest_eq_foldr ys il]
      simp [String.append_assoc]

theorem prepare_list_length {T : Type u} (pf : PrettyFormatter) :
    ∀ (xs ys : List (PrettyExpr T)), pf.prepare_list xs = some ys →
      ys.length = xs.length
  | [], ys => fun h => by
      rw [show pf.prepare_list ([] : List (PrettyExpr T)) = some [] from rfl] at h
      cases h; rfl
  | x :: xs, ys => fun h => by
      rw [show pf.prepare_list (x :: xs)
            = match pf.prepare x, pf.prepare_list xs with
              | some y, some ys => some (y :: ys)
              | _, _ => none from rfl] at h
      cases hx : pf.prepare x with
      | none => rw [hx] at h; simp at h
      | some y =>
        cases hxs : pf.prepare_list xs with
        | none => rw [hx, hxs] at h; simp at h
        | some zs =>
          rw [hx, hxs] at h
          cases h
          simpa using pf.prepare_list_length xs zs hxs

end PrettyFormatter

/-- C3: for a list node tagged `Inline` whose width computation yields `w`:
if `w` fits within `max_code_width`, `prepare` keeps the node `Inline` and
(provided no leaf text already contains a newline character, which `write`
would copy verbatim) the emitted text contains no line break; if `w` exceeds
`max_code_width`, `prepare` rewrites the node to `Expand` with the same number
of children, and the emitted text places an indent break (newline plus
indentation) before every child after the first. -/
theorem inline_fits_no_break_else_break_per_child {T : Type u}
    (pf : PrettyFormatter) (xs : List (PrettyExpr T)) (w : Nat)
    (hw : PrettyExpr.inline_width (.Inline xs) = some w) :
    (w ≤ pf.max_code_width → PrettyExpr.nl_free (.Inline xs) = true →
      pf.prepare (.Inline xs) = some (.Inline xs) ∧
      '\n' ∉ (pf.write (.Inline xs) 0).data) ∧
    (pf.max_code_width < w →
      ∃ ys, pf.prepare (.Inline xs) = some (.Expand ys) ∧
        ys.length = xs.length ∧
        ∀ y0 y1 yrest, ys = y0 :: y1 :: yrest →
          pf.write (.Expand ys) 0 =
            "(" ++
              pf.write y0 (if y0.is_atom then pf.default_indent else 1) ++
              ((y1 :: yrest).map (fun z =>
                  write_indent (if y0.is_atom then pf.default_indent else 1) ++
                  pf.write z (if y0.is_atom then pf.default_indent else 1))).foldr
                (· ++ ·) "" ++ ")") := by
  constructor
  · intro hle hnl
    refine ⟨by simp [PrettyFormatter.prepare, hw, hle], ?_⟩
    exact pf.write_nl_free (.Inline xs) 0 (by simp [hw]) hnl
  · intro hgt
    have hfree : PrettyExpr.expand_free (.Inline xs : PrettyExpr T) = true := by
      rw [← PrettyExpr.inline_width_isSome_eq_expand_free, hw]; rfl
    have hl := pf.prepare_list_isSome_of_expand_free_list xs
      (by simpa [PrettyExpr.expand_free] using hfree)
    cases hlv : pf.prepare_list xs with
    | none => rw [hlv] at hl; simp at hl
    | some ys =>
      refine ⟨ys, by simp [PrettyFormatter.prepare, hw, Nat.not_le_of_lt hgt, hlv],
        pf.prepare_list_length xs ys hlv, ?_⟩
      rintro y0 y1 yrest rfl
      rw [show pf.write (.Expand (y0 :: y1 :: yrest)) 0
            = pf.write_expanded (y0 :: y1 :: yrest) 0 from rfl]
      rw [show pf.write_expanded (y0 :: y1 :: yrest) 0
            = "(" ++ (pf.write y0 (0 + if y0.is_atom then pf.default_indent else 1) ++
                pf.write_expanded_rest (y1 :: yrest)
                  (0 + if y0.is_atom then pf.default_indent else 1)) ++ ")" from rfl]
      rw [pf.write_expanded_rest_eq_foldr]
      simp [String.append_assoc]

/-- Witness for C3 at concrete inputs: `(a)` fits within width 15 and renders
without a break; `(aa bb)` with width budget 3 is rewritten to `Expand` and
rendered with an indent break before the second child. -/
theorem inline_fits_no_break_else_break_per_child_witness :
    (PrettyFormatter.mkDefault.prepare (.Inline [(.Atom "a" : PrettyExpr Unit)])
        = some (.Inline [.Atom "a"]) ∧
      '\n' ∉ (PrettyFormatter.mkDefault.write
        (.Inline [(.Atom "a" : PrettyExpr Unit)]) 0).data) ∧
    (∃ ys, (PrettyFormatter.mk 3 2).prepare
          (.Inline [(.Atom "aa" : PrettyExpr Unit), .Atom "bb"])
        = some (.Expand ys) ∧
      ys.length = 2 ∧
        ∀ y0 y1 yrest, ys = y0 :: y1 :: yrest →
          (PrettyFormatter.mk 3 2).write (.Expand ys) 0 =
            "(" ++
              (PrettyFormatter.mk 3 2).write y0
                (if y0.is_atom then (PrettyFormatter.mk 3 2).default_indent else 1) ++
              ((y1 :: yrest).map (fun z =>
                  write_indent
                    (if y0.is_atom then (PrettyFormatter.mk 3 2).default_indent else 1) ++
                  (PrettyFormatter.mk 3 2).write z
                    (if y0.is_atom then (PrettyFormatter.mk 3 2).default_indent else 1))).foldr
                (· ++ ·) "" ++ ")") :=
  ⟨(inline_fits_no_break_else_break_per_child PrettyFormatter.mkDefault
      [PrettyExpr.Atom "a"] 3 rfl).1 (by decide) (by decide),
   (inline_fits_no_break_else_break_per_child (PrettyFormatter.mk 3 2)
      [PrettyExpr.Atom "aa", PrettyExpr.Atom "bb"] 7 rfl).2 (by decide)⟩

/-! ### Total path lookup and its specification (claim C9) -/

namespace PrettyExpr

theorem spec_resolves_of_get {T : Type u} :
    ∀ (e : PrettyExpr T) (p : List Nat) (x : PrettyExpr T),
      get e p = some x → SpecResolves e p x
  | .Style t y, p, x => fun h =>
      .style t y p x (spec_resolves_of_get y p x (by rwa [get_style] at h))
  | .Atom s, [], x => fun h => by
      rw [show get (.Atom s : PrettyExpr T) [] = some (.Atom s) from rfl] at h
      cases h; exact .here _ rfl
  | .Stat s, [], x => fun h => by
      rw [show get (.Stat s : PrettyExpr T) [] = some (.Stat s) from rfl] at h
      cases h; exact .here _ rfl
  | .Inline xs, [], x => fun h => by
      rw [show get (.Inline xs : PrettyExpr T) [] = some (.Inline xs) from rfl] at h
      cases h; exact .here _ rfl
  | .Expand xs, [], x => fun h => by
      rw [show get (.Expand xs : PrettyExpr T) [] = some (.Expand xs) from rfl] at h
      cases h; exact .here _ rfl
  | .Atom s, _ :: _, x => fun h => by simp [get] at h
  | .Stat s, _ :: _, x => fun h => by simp [get] at h
  | .Inline xs, i :: rest, x => fun h => by
      rw [get_cons_inline] at h
      cases hy : xs.get? i with
      | none => rw [hy] at h; simp at h
      | some y =>
        rw [hy] at h; simp at h
        obtain ⟨hi, hget⟩ := List.get?_eq_some.mp hy
        refine .inline xs i rest x hi ?_
        rw [hget]
        exact spec_resolves_of_get y rest x h
  | .Expand xs, i :: rest, x => fun h => by
      rw [get_cons_expand] at h
      cases hy : xs.get? i with
      | none => rw [hy] at h; simp at h
      | some y =>
        rw [hy] at h; simp at h
        obtain ⟨hi, hget⟩ := List.get?_eq_some.mp hy
        refine .expand xs i rest x hi ?_
        rw [hget]
        exact spec_resolves_of_get y rest x h

theorem get_of_spec_resolves {T : Type u} {e : PrettyExpr T} {p : List Nat}
    {x : PrettyExpr T} (h : SpecResolves e p x) : get e p = some x := by
  induction h with
  | here y hy => cases y <;> first | rfl | (simp [is_style] at hy)
  | style s y q z hz ih => rwa [get_style]
  | inline xs i rest y hi hz ih =>
      rw [get_cons_inline, List.get?_eq_get hi]
      simpa using ih
  | expand xs i rest y hi hz ih =>
      rw [get_cons_expand, List.get?_eq_get hi]
      simpa using ih

end PrettyExpr

/-- C9: `get` is a total function (no panic is modelled in it); it returns
exactly the nodes characterized by the spec's path-resolution rules — skipping
`Styled` wrappers transparently — and returns `none` exactly when no such
resolution exists, i.e. when an index is out of range or the path descends
into an atomic/label node. -/
theorem get_total_characterization {T : Type u} (e : PrettyExpr T)
    (p : List Nat) :
    (∀ x, PrettyExpr.get e p = some x ↔ PrettyExpr.SpecResolves e p x) ∧
    (PrettyExpr.get e p = none ↔ ∀ x, ¬ PrettyExpr.SpecResolves e p x) := by
  constructor
  · intro x
    exact ⟨PrettyExpr.spec_resolves_of_get e p x, PrettyExpr.get_of_spec_resolves⟩
  · constructor
    · intro hn x hres
      rw [PrettyExpr.get_of_spec_resolves hres] at hn
      cases hn
    · intro hall
      cases hx : PrettyExpr.get e p with
      | none => rfl
      | some x => exact absurd (PrettyExpr.spec_resolves_of_get e p x hx) (hall x)

/-! ### Cursor policy at the no-selection boundary (claim C10) -/

/-- C10: with the cursor in the no-selection state (`none`),
`move_cursor_into_list` and `move_cursor_in_list` both select the root (the
empty path) instead of doing nothing; `move_cursor_out_of_list` on the
already-empty root path moves the cursor into the no-selection state. -/
theorem no_selection_policy {T : Type u} (v w : SexprView T) (dir : Int)
    (hv : v.cursor = none) (hw : w.cursor = some []) :
    v.move_cursor_into_list = { v with cursor := some [] } ∧
    v.move_cursor_in_list dir = some { v with cursor := some [] } ∧
    w.move_cursor_out_of_list = { w with cursor := none } := by
  obtain ⟨e1, w1, h1, c1⟩ := v
  obtain ⟨e2, w2, h2, c2⟩ := w
  cases hv
  cases hw
  exact ⟨rfl, rfl, rfl⟩

/-- Witness for C10 at a concrete view. -/
theorem no_selection_policy_witness :
    SexprView.move_cursor_into_list ⟨(.Atom "a" : PrettyExpr Unit), 5, 5, none⟩
      = ⟨.Atom "a", 5, 5, some []⟩ ∧
    SexprView.move_cursor_in_list ⟨(.Atom "a" : PrettyExpr Unit), 5, 5, none⟩ 1
      = some ⟨.Atom "a", 5, 5, some []⟩ ∧
    SexprView.move_cursor_out_of_list ⟨(.Atom "a" : PrettyExpr Unit), 5, 5, some []⟩
      = ⟨.Atom "a", 5, 5, none⟩ :=
  no_selection_policy ⟨.Atom "a", 5, 5, none⟩ ⟨.Atom "a", 5, 5, some []⟩ 1 rfl rfl

/-! ### Wrapping the addressed node (claim C5) -/

/-- Counterexample to C5 as stated: `wrap_cursor_in_list` does not descend the
cursor.  On the view `(a)` with cursor path `[0]` (addressing the atom `a`),
wrapping yields `((a))` with the cursor still at `[0]`, which now resolves to
the new wrapper list `(a)` — not to the original content `a`. -/
theorem wrap_cursor_descend_counterexample :
    SexprView.wrap_cursor_in_list
        ⟨.Inline [(.Atom "a" : PrettyExpr Unit)], 5, 5, some [0]⟩
      = some ⟨.Inline [.Inline [.Atom "a"]], 5, 5, some [0]⟩ ∧
    PrettyExpr.get (.Inline [(.Inline [.Atom "a"] : PrettyExpr Unit)]) [0]
      = some (.Inline [.Atom "a"]) ∧
    ((some (.Inline [.Atom "a"]) : Option (PrettyExpr Unit))
      ≠ some (.Atom "a")) :=
  ⟨rfl, rfl, by simp⟩

/-- C5 (amended): for every valid cursor path, `wrap_cursor_in_list` replaces
the addressed node `x` by the new single-child list `(x)`; the cursor path is
left unchanged, so afterwards the cursor addresses the new wrapper list (not
the wrapped content). -/
theorem wrap_cursor_in_list_spec {T : Type u} (v : SexprView T) (c : List Nat)
    (x : PrettyExpr T) (hc : v.cursor = some c)
    (hx : PrettyExpr.get v.expr c = some x) :
    ∃ v2, v.wrap_cursor_in_list = some v2 ∧ v2.cursor = some c ∧
      PrettyExpr.get v2.expr c = some (.Inline [x]) ∧
      v2.width = v.width ∧ v2.height = v.height := by
  obtain ⟨e2, hm, hq⟩ :=
    PrettyExpr.modify_spec (fun y => PrettyExpr.list [y]) v.expr c x hx
  obtain ⟨e, vw, vh, cur⟩ := v
  cases hc
  refine ⟨⟨e2, vw, vh, some c⟩, ?_, rfl, ?_, rfl, rfl⟩
  · rw [show SexprView.wrap_cursor_in_list ⟨e, vw, vh, some c⟩
          = (PrettyExpr.modify (fun y => PrettyExpr.list [y]) e c).map
              (fun e2 => ⟨e2, vw, vh, some c⟩) from rfl]
    rw [hm]
    rfl
  · have := hq []
    rw [List.append_nil] at this
    rw [this]
    rfl

/-- Witness for C5 (amended) at the counterexample's input. -/
theorem wrap_cursor_in_list_spec_witness :
    ∃ v2, SexprView.wrap_cursor_in_list
        ⟨.Inline [(.Atom "a" : PrettyExpr Unit)], 5, 5, some [0]⟩ = some v2 ∧
      v2.cursor = some [0] ∧
      PrettyExpr.get v2.expr [0] = some (.Inline [.Atom "a"]) ∧
      v2.width = 5 ∧ v2.height = 5 :=
  wrap_cursor_in_list_spec ⟨.Inline [.Atom "a"], 5, 5, some [0]⟩ [0]
    (.Atom "a") rfl rfl

/-! ### Deleting the addressed element (claim C4) -/

namespace PrettyExpr

theorem replace_elements_spec {T : Type u} (par : PrettyExpr T)
    (xs ys : List (PrettyExpr T)) (hs : is_style par = false)
    (hel : elements par = some xs) :
    elements (replace_elements ys par) = some ys ∧
    get (replace_elements ys par) [] = some (replace_elements ys par) ∧
    len (replace_elements ys par) = ys.length := by
  cases par with
  | Atom s => simp [elements] at hel
  | Stat s => simp [elements] at hel
  | Style t x => simp [is_style] at hs
  | Inline zs => exact ⟨rfl, rfl, rfl⟩
  | Expand zs => exact ⟨rfl, rfl, rfl⟩

end PrettyExpr

/-- C4: with the cursor on a valid non-empty path ending in index `i` into a
parent list, `delete_cursor_element` removes the child at `i` from the
parent's child sequence; if the parent becomes empty the cursor pops one level
(addressing the now-empty parent), otherwise its final index becomes
`min i (new_length - 1)`; in both cases the new cursor resolves to an existing
node. -/
theorem delete_cursor_element_spec {T : Type u} (v : SexprView T)
    (c : List Nat) (i : Nat) (x : PrettyExpr T)
    (hc : v.cursor = some (c ++ [i]))
    (hx : PrettyExpr.get v.expr (c ++ [i]) = some x) :
    ∃ v2 par xs par2,
      PrettyExpr.get v.expr c = some par ∧
      PrettyExpr.elements par = some xs ∧ i < xs.length ∧
      v.delete_cursor_element = some v2 ∧
      PrettyExpr.get v2.expr c = some par2 ∧
      PrettyExpr.elements par2 = some (xs.eraseIdx i) ∧
      v2.cursor = some (if (xs.eraseIdx i).isEmpty then c
                        else c ++ [min i ((xs.eraseIdx i).length - 1)]) ∧
      (∃ c2 z, v2.cursor = some c2 ∧ PrettyExpr.get v2.expr c2 = some z) ∧
      v2.width = v.width ∧ v2.height = v.height := by
  rw [PrettyExpr.get_append] at hx
  cases hpar : PrettyExpr.get v.expr c with
  | none => rw [hpar] at hx; simp at hx
  | some par =>
  rw [hpar] at hx
  simp only [Option.some_bind] at hx
  obtain ⟨xs, y, hel, hy, hyx⟩ := PrettyExpr.elements_of_get_cons par i [] x hx
  obtain ⟨hi, -⟩ := List.get?_eq_some.mp hy
  have hs : PrettyExpr.is_style par = false :=
    PrettyExpr.get_not_style v.expr c par hpar
  obtain ⟨hel2, hget2, -⟩ := PrettyExpr.replace_elements_spec par xs
    (xs.eraseIdx i) hs hel
  obtain ⟨e2, hm, hq⟩ := PrettyExpr.modify_spec
    (PrettyExpr.replace_elements (xs.eraseIdx i)) v.expr c par hpar
  obtain ⟨e, vw, vh, cur⟩ := v
  cases hc
  simp only at hpar hm hq
  have hunfold : SexprView.delete_cursor_element ⟨e, vw, vh, some (c ++ [i])⟩
      = some (if (xs.eraseIdx i).isEmpty
              then ⟨e2, vw, vh, some c⟩
              else ⟨e2, vw, vh, some (c ++ [min i ((xs.eraseIdx i).length - 1)])⟩) := by
    simp only [SexprView.delete_cursor_element, List.getLast?_concat,
      List.dropLast_concat, hpar, Option.some_bind, hel, hi, if_true, hm]
    split <;> rfl
  have h0 : PrettyExpr.get e2 c
      = some (PrettyExpr.replace_elements (xs.eraseIdx i) par) := by
    have h1 := hq []
    rw [List.append_nil] at h1
    rw [h1]
    exact hget2
  refine ⟨if (xs.eraseIdx i).isEmpty
            then (⟨e2, vw, vh, some c⟩ : SexprView T)
            else ⟨e2, vw, vh, some (c ++ [min i ((xs.eraseIdx i).length - 1)])⟩,
    par, xs, PrettyExpr.replace_elements (xs.eraseIdx i) par,
    rfl, hel, hi, by rw [hunfold], ?_, hel2, ?_, ?_, ?_, ?_⟩
  · split <;> exact h0
  · split <;> rfl
  · by_cases hemp : (xs.eraseIdx i).isEmpty
    · refine ⟨c, PrettyExpr.replace_elements (xs.eraseIdx i) par, ?_, ?_⟩
      · simp [hemp]
      · simp only [hemp, if_true]
        exact h0
    · have hlen : 0 < (xs.eraseIdx i).length := by
        cases hxe : xs.eraseIdx i with
        | nil => rw [hxe] at hemp; simp at hemp
        | cons a as => simp [hxe]
      have hj : min i ((xs.eraseIdx i).length - 1) < (xs.eraseIdx i).length := by
        have := Nat.min_le_right i ((xs.eraseIdx i).length - 1)
        omega
      set z := (xs.eraseIdx i).get ⟨min i ((xs.eraseIdx i).length - 1), hj⟩ with hzdef
      have hz : (xs.eraseIdx i).get? (min i ((xs.eraseIdx i).length - 1)) = some z :=
        List.get?_eq_get hj
      have hgz : PrettyExpr.get e2 (c ++ [min i ((xs.eraseIdx i).length - 1)])
          = (PrettyExpr.get z []) := by
        rw [hq [min i ((xs.eraseIdx i).length - 1)]]
        rw [PrettyExpr.get_cons_of_elements _ _ hel2]
        rw [hz]
        rfl
      obtain ⟨z2, hz2⟩ := Option.isSome_iff_exists.mp (PrettyExpr.get_nil_isSome z)
      refine ⟨c ++ [min i ((xs.eraseIdx i).length - 1)], z2, ?_, ?_⟩
      · rw [if_neg hemp]
      · rw [if_neg hemp]
        exact hgz.trans hz2
  · split <;> rfl
  · split <;> rfl

/-- Witness for C4 at a concrete view: deleting the second element of `(a b)`
leaves `(a)` with the cursor clamped onto the surviving sibling. -/
theorem delete_cursor_element_spec_witness :
    ∃ v2 par xs par2,
      PrettyExpr.get (.Inline [(.Atom "a" : PrettyExpr Unit), .Atom "b"]) []
        = some par ∧
      PrettyExpr.elements par = some xs ∧ 1 < xs.length ∧
      SexprView.delete_cursor_element
          ⟨.Inline [.Atom "a", .Atom "b"], 5, 5, some [1]⟩ = some v2 ∧
      PrettyExpr.get v2.expr [] = some par2 ∧
      PrettyExpr.elements par2 = some (xs.eraseIdx 1) ∧
      v2.cursor = some (if (xs.eraseIdx 1).isEmpty then []
                        else [] ++ [min 1 ((xs.eraseIdx 1).length - 1)]) ∧
      (∃ c2 z, v2.cursor = some c2 ∧ PrettyExpr.get v2.expr c2 = some z) ∧
      v2.width = 5 ∧ v2.height = 5 :=
  delete_cursor_element_spec ⟨.Inline [.Atom "a", .Atom "b"], 5, 5, some [1]⟩
    [] 1 (.Atom "b") rfl rfl

/-! ### Sibling navigation wraps modulo the child count (claim C8) -/

theorem usize_of_isize_natCast (n : Nat) : usize_of_isize (n : Int) = n := by
  simp [usize_of_isize]

namespace SexprView

theorem move_cursor_in_list_step {T : Type u} (e : PrettyExpr T) (vw vh : Nat)
    (c : List Nat) (j : Nat) (par : PrettyExpr T) (dir : Int)
    (hpar : PrettyExpr.get e c = some par)
    (hl : 0 < PrettyExpr.len par)
    (hnn : 0 ≤ (j : Int) + dir + (PrettyExpr.len par : Int)) :
    SexprView.move_cursor_in_list ⟨e, vw, vh, some (c ++ [j])⟩ dir
      = some ⟨e, vw, vh,
          some (c ++ [(((j : Int) + dir) % (PrettyExpr.len par : Int)).toNat])⟩ := by
  have hlz : ((PrettyExpr.len par : Int)) ≠ 0 := by
    simpa using Nat.pos_iff_ne_zero.mp hl
  have htm : Int.tmod ((j : Int) + dir + (PrettyExpr.len par : Int))
        ((PrettyExpr.len par : Int))
      = ((j : Int) + dir) % ((PrettyExpr.len par : Int)) := by
    rw [Int.tmod_eq_emod hnn (by positivity)]
    rw [show (j : Int) + dir + (PrettyExpr.len par : Int)
          = (j : Int) + dir + (PrettyExpr.len par : Int) * 1 from by ring]
    rw [Int.add_mul_emod_self_left]
  have hnn2 : 0 ≤ ((j : Int) + dir) % ((PrettyExpr.len par : Int)) :=
    Int.emod_nonneg _ hlz
  simp only [SexprView.move_cursor_in_list, List.getLast?_concat,
    List.dropLast_concat, hpar]
  rw [if_neg hlz]
  rw [htm]
  congr 2
  simp [usize_of_isize, hnn2]

theorem move_cursor_in_list_iter_invariant {T : Type u} (e : PrettyExpr T)
    (vw vh : Nat) (c : List Nat) (par : PrettyExpr T)
    (hpar : PrettyExpr.get e c = some par) (hl : 0 < PrettyExpr.len par) :
    ∀ (k j : Nat), j < PrettyExpr.len par →
      SexprView.move_cursor_in_list_iter k ⟨e, vw, vh, some (c ++ [j])⟩
        = some ⟨e, vw, vh, some (c ++ [(j + k) % PrettyExpr.len par])⟩
  | 0, j => fun hj => by
      rw [show SexprView.move_cursor_in_list_iter 0
            (⟨e, vw, vh, some (c ++ [j])⟩ : SexprView T)
          = some ⟨e, vw, vh, some (c ++ [j])⟩ from rfl]
      rw [Nat.mod_eq_of_lt (by omega), Nat.add_zero]
  | k + 1, j => fun hj => by
      rw [show SexprView.move_cursor_in_list_iter (k + 1)
            (⟨e, vw, vh, some (c ++ [j])⟩ : SexprView T)
          = (SexprView.move_cursor_in_list ⟨e, vw, vh, some (c ++ [j])⟩ 1).bind
              (SexprView.move_cursor_in_list_iter k) from rfl]
      rw [move_cursor_in_list_step e vw vh c j par 1 hpar hl (by positivity)]
      have hcast : (((j : Int) + 1) % (PrettyExpr.len par : Int)).toNat
          = (j + 1) % PrettyExpr.len par := by
        have : ((j : Int) + 1) = ((j + 1 : Nat) : Int) := by push_cast; ring
        rw [this, ← Int.natCast_mod]
        exact Int.toNat_natCast _
      rw [Option.some_bind, hcast]
      rw [move_cursor_in_list_iter_invariant e vw vh c par hpar hl k
        ((j + 1) % PrettyExpr.len par) (Nat.mod_lt _ hl)]
      rw [Nat.mod_add_mod]
      rw [show j + 1 + k = j + (k + 1) from by omega]

end SexprView

/-- C8: with the cursor on a valid non-empty path ending in `i` whose parent
has `n` children, `move_cursor_in_list dir` replaces `i` by the
mathematical-modulus value `(i + dir) mod n` (wrapping in both directions; the
side condition `0 ≤ i + dir + n` reflects the `isize` computation of the code
and holds for the directions `±1` used by the key bindings); applying
`move_cursor_in_list 1` exactly `n` times returns the view unchanged; and the
operation is a no-op when the cursor path is empty. -/
theorem move_sibling_mod_spec {T : Type u} :
    (∀ (v : SexprView T) (c : List Nat) (i : Nat) (x par : PrettyExpr T)
        (dir : Int),
      v.cursor = some (c ++ [i]) →
      PrettyExpr.get v.expr (c ++ [i]) = some x →
      PrettyExpr.get v.expr c = some par →
      0 ≤ (i : Int) + dir + (PrettyExpr.len par : Int) →
      (v.move_cursor_in_list dir
          = some { v with cursor := some (c ++ [(((i : Int) + dir) % (PrettyExpr.len par : Int)).toNat]) } ∧
        SexprView.move_cursor_in_list_iter (PrettyExpr.len par) v = some v)) ∧
    (∀ (w : SexprView T) (dir : Int), w.cursor = some [] →
      w.move_cursor_in_list dir = some w) := by
  constructor
  · intro v c i x par dir hc hx hpar hnn
    rw [PrettyExpr.get_append] at hx
    rw [hpar] at hx
    simp only [Option.some_bind] at hx
    obtain ⟨xs, y, hel, hy, -⟩ := PrettyExpr.elements_of_get_cons par i [] x hx
    obtain ⟨hilt, -⟩ := List.get?_eq_some.mp hy
    have hleq : PrettyExpr.len par = xs.length := PrettyExpr.len_of_elements par xs hel
    have hl : 0 < PrettyExpr.len par := by omega
    obtain ⟨e, vw, vh, cur⟩ := v
    cases hc
    simp only at hpar
    constructor
    · exact SexprView.move_cursor_in_list_step e vw vh c i par dir hpar hl hnn
    · rw [SexprView.move_cursor_in_list_iter_invariant e vw vh c par hpar hl
        (PrettyExpr.len par) i (by omega)]
      rw [Nat.add_mod_right, Nat.mod_eq_of_lt (by omega)]
  · intro w dir hw
    obtain ⟨e, vw, vh, cur⟩ := w
    cases hw
    rfl

/-- Witness for C8 at the spec's scenario: cursor path `[1, 2]` into
`((x) (a b c) (y))`; one step of `move_cursor_in_list 1` wraps the final index
from `2` to `0`, and three steps return the view unchanged. -/
theorem move_sibling_mod_spec_witness :
    (SexprView.move_cursor_in_list
        ⟨.Inline [.Inline [.Atom "x"], .Inline [(.Atom "a" : PrettyExpr Unit),
          .Atom "b", .Atom "c"], .Inline [.Atom "y"]], 25, 10, some [1, 2]⟩ 1
      = some ⟨.Inline [.Inline [.Atom "x"], .Inline [.Atom "a", .Atom "b",
          .Atom "c"], .Inline [.Atom "y"]], 25, 10,
          some ([1] ++ [(((2 : Int) + 1) %
            ((PrettyExpr.len (.Inline [(.Atom "a" : PrettyExpr Unit), .Atom "b",
              .Atom "c"])) : Int)).toNat])⟩ ∧
      SexprView.move_cursor_in_list_iter
        (PrettyExpr.len (.Inline [(.Atom "a" : PrettyExpr Unit), .Atom "b", .Atom "c"]))
        (⟨.Inline [.Inline [.Atom "x"], .Inline [.Atom "a", .Atom "b", .Atom "c"],
          .Inline [.Atom "y"]], 25, 10, some [1, 2]⟩ : SexprView Unit)
      = some ⟨.Inline [.Inline [.Atom "x"], .Inline [.Atom "a", .Atom "b", .Atom "c"],
          .Inline [.Atom "y"]], 25, 10, some [1, 2]⟩) ∧
    SexprView.move_cursor_in_list
        ⟨(.Atom "z" : PrettyExpr Unit), 3, 3, some []⟩ 1
      = some ⟨.Atom "z", 3, 3, some []⟩ :=
  ⟨move_sibling_mod_spec.1
      (⟨.Inline [.Inline [.Atom "x"], .Inline [.Atom "a", .Atom "b", .Atom "c"],
        .Inline [.Atom "y"]], 25, 10, some [1, 2]⟩ : SexprView Unit)
      [1] 2 (.Atom "c") (.Inline [.Atom "a", .Atom "b", .Atom "c"]) 1
      rfl rfl rfl (by decide),
    move_sibling_mod_spec.2 ⟨.Atom "z", 3, 3, some []⟩ 1 rfl⟩

/-! ### Character editing at the cursor (claim C7) -/

namespace SexprView

theorem delete_at_cursor_text {T : Type u} (v : SexprView T) (c : List Nat)
    (s : String) (hc : v.cursor = some c)
    (hx : PrettyExpr.get v.expr c = some (.Atom s)) :
    ∃ v2, v.delete_at_cursor = some v2 ∧ v2.cursor = some c ∧
      v2.width = v.width ∧ v2.height = v.height ∧
      PrettyExpr.get v2.expr c
        = some (if (s.dropRight 1).isEmpty then .Inline []
                else .Atom (s.dropRight 1)) := by
  obtain ⟨e2, hm, hq⟩ := PrettyExpr.modify_spec
    (fun _ => if (s.dropRight 1).isEmpty then PrettyExpr.Placeholder
              else PrettyExpr.Atom (s.dropRight 1)) v.expr c (.Atom s) hx
  obtain ⟨e, vw, vh, cur⟩ := v
  cases hc
  simp only at hx hm hq
  refine ⟨⟨e2, vw, vh, some c⟩, ?_, rfl, rfl, rfl, ?_⟩
  · simp only [SexprView.delete_at_cursor, hx, PrettyExpr.get_text, hm]
    rfl
  · have h1 := hq []
    rw [List.append_nil] at h1
    rw [h1]
    by_cases hdr : (s.dropRight 1).isEmpty
    · rw [if_pos hdr, if_pos hdr]
      rfl
    · rw [if_neg hdr, if_neg hdr]
      rfl

end SexprView

/-- C7: if the cursor addresses a text node with text `s`, `delete_at_cursor`
drops the last character, and when the remaining text is empty the node is
replaced by the empty-list placeholder rather than an empty atom; and
`append_at_cursor "x"` on an addressed empty list pushes the text leaf `x`,
descends the cursor onto it, and a following `delete_at_cursor` returns the
addressed node to empty-list form. -/
theorem append_delete_char_spec {T : Type u} :
    (∀ (v : SexprView T) (c : List Nat) (s : String),
      v.cursor = some c →
      PrettyExpr.get v.expr c = some (.Atom s) →
      ∃ v2, v.delete_at_cursor = some v2 ∧ v2.cursor = some c ∧
        v2.width = v.width ∧ v2.height = v.height ∧
        PrettyExpr.get v2.expr c
          = some (if (s.dropRight 1).isEmpty then .Inline []
                  else .Atom (s.dropRight 1))) ∧
    (∀ (v : SexprView T) (c : List Nat),
      v.cursor = some c →
      PrettyExpr.get v.expr c = some (.Inline []) →
      ∃ v1 v2, v.append_at_cursor "x" = some v1 ∧
        v1.cursor = some (c ++ [0]) ∧
        PrettyExpr.get v1.expr (c ++ [0]) = some (.Atom "x") ∧
        v1.delete_at_cursor = some v2 ∧ v2.cursor = some (c ++ [0]) ∧
        PrettyExpr.get v2.expr (c ++ [0]) = some (.Inline [])) := by
  constructor
  · exact fun v c s hc hx => SexprView.delete_at_cursor_text v c s hc hx
  · intro v c hc hx
    obtain ⟨e2, hm, hq⟩ := PrettyExpr.modify_spec
      (PrettyExpr.replace_elements [.Atom "x"]) v.expr c (.Inline []) hx
    obtain ⟨e, vw, vh, cur⟩ := v
    cases hc
    simp only at hx hm hq
    have hval : PrettyExpr.get e2 (c ++ [0]) = some (.Atom "x") := by
      rw [hq [0]]
      rfl
    have happ : SexprView.append_at_cursor ⟨e, vw, vh, some c⟩ "x"
        = some ⟨e2, vw, vh, some (c ++ [0])⟩ := by
      simp only [SexprView.append_at_cursor, hx, PrettyExpr.get_text,
        PrettyExpr.is_empty_list, hm]
      simp only [SexprView.move_cursor_into_list, PrettyExpr.is_valid_path, hval]
      rfl
    obtain ⟨v2, hd, hcur2, hw2, hh2, hget2⟩ :=
      SexprView.delete_at_cursor_text ⟨e2, vw, vh, some (c ++ [0])⟩ (c ++ [0])
        "x" rfl hval
    refine ⟨⟨e2, vw, vh, some (c ++ [0])⟩, v2, happ, rfl, hval, hd, hcur2, ?_⟩
    rw [hget2]
    rfl

/-- Witness for C7 at a concrete view: on `(y ())` with the cursor on the
empty list, appending `x` gives `(y (x))` with the cursor on the atom, and
deleting the character restores the empty list under the cursor. -/
theorem append_delete_char_spec_witness :
    (∃ v2, SexprView.delete_at_cursor
        ⟨.Inline [(.Atom "ab" : PrettyExpr Unit)], 5, 5, some [0]⟩ = some v2 ∧
      v2.cursor = some [0] ∧ v2.width = 5 ∧ v2.height = 5 ∧
      PrettyExpr.get v2.expr [0]
        = some (if ("ab".dropRight 1).isEmpty then .Inline []
                else .Atom ("ab".dropRight 1))) ∧
    (∃ v1 v2, SexprView.append_at_cursor
        ⟨.Inline [(.Atom "y" : PrettyExpr Unit), .Inline []], 5, 5, some [1]⟩ "x"
        = some v1 ∧
      v1.cursor = some ([1] ++ [0]) ∧
      PrettyExpr.get v1.expr ([1] ++ [0]) = some (.Atom "x") ∧
      v1.delete_at_cursor = some v2 ∧ v2.cursor = some ([1] ++ [0]) ∧
      PrettyExpr.get v2.expr ([1] ++ [0]) = some (.Inline [])) :=
  ⟨append_delete_char_spec.1 ⟨.Inline [.Atom "ab"], 5, 5, some [0]⟩ [0] "ab"
      rfl rfl,
    append_delete_char_spec.2 ⟨.Inline [.Atom "y", .Inline []], 5, 5, some [1]⟩
      [1] rfl rfl⟩

/-! ### Inserting a placeholder after the cursor (claim C6) -/

/-- C6: (a) for the editor of sexpr_view.rs, with the cursor on a valid
non-empty path ending in `i`, `insert_element_after_cursor` inserts a fresh
empty-list placeholder at position `i + 1` of the parent's child sequence and
moves the cursor onto it; (b) for the spec-modelled editor over trees with
`Quotation` nodes (the variant is absent from src/), when the parent resolves
to a `Quotation` the operation equals itself applied with the insertion
target shifted outward one level (the retry of §4.3). -/
theorem insert_element_after_cursor_spec {T : Type u} :
    (∀ (v : SexprView T) (c : List Nat) (i : Nat) (x : PrettyExpr T),
      v.cursor = some (c ++ [i]) →
      PrettyExpr.get v.expr (c ++ [i]) = some x →
      ∃ v2 par xs par2,
        PrettyExpr.get v.expr c = some par ∧
        PrettyExpr.elements par = some xs ∧ i < xs.length ∧
        v.insert_element_after_cursor = some v2 ∧
        PrettyExpr.get v2.expr c = some par2 ∧
        PrettyExpr.elements par2 = some (xs.insertIdx (i + 1) (.Inline [])) ∧
        v2.cursor = some (c ++ [i + 1]) ∧
        PrettyExpr.get v2.expr (c ++ [i + 1]) = some (.Inline []) ∧
        v2.width = v.width ∧ v2.height = v.height) ∧
    (∀ (qv : QSexprView T) (c : List Nat) (i : Nat) (y : QExpr T),
      qv.cursor = some (c ++ [i]) →
      QExpr.qget qv.expr c = some (.Quotation y) →
      qv.insert_element_after_cursor
        = QSexprView.insert_element_after_cursor ⟨qv.expr, some c⟩) := by
  constructor
  · intro v c i x hc hx
    rw [PrettyExpr.get_append] at hx
    cases hpar : PrettyExpr.get v.expr c with
    | none => rw [hpar] at hx; simp at hx
    | some par =>
    rw [hpar] at hx
    simp only [Option.some_bind] at hx
    obtain ⟨xs, y, hel, hy, -⟩ := PrettyExpr.elements_of_get_cons par i [] x hx
    obtain ⟨hi, -⟩ := List.get?_eq_some.mp hy
    have hs : PrettyExpr.is_style par = false :=
      PrettyExpr.get_not_style v.expr c par hpar
    obtain ⟨hel2, hget2, hlen2⟩ := PrettyExpr.replace_elements_spec par xs
      (xs.insertIdx (i + 1) (.Inline [])) hs hel
    obtain ⟨e2, hm, hq⟩ := PrettyExpr.modify_spec
      (PrettyExpr.replace_elements (xs.insertIdx (i + 1) (.Inline [])))
      v.expr c par hpar
    obtain ⟨e, vw, vh, cur⟩ := v
    cases hc
    simp only at hpar hm hq
    have hlen' : (xs.insertIdx (i + 1) (.Inline [] : PrettyExpr T)).length
        = xs.length + 1 := List.length_insertIdx _ _ (by omega)
    have h0 : PrettyExpr.get e2 c
        = some (PrettyExpr.replace_elements (xs.insertIdx (i + 1) (.Inline [])) par) := by
      have h1 := hq []
      rw [List.append_nil] at h1
      rw [h1]
      exact hget2
    have hlenpar : PrettyExpr.len
        (PrettyExpr.replace_elements (xs.insertIdx (i + 1) (.Inline [])) par)
        = xs.length + 1 := by rw [hlen2, hlen']
    have hmv : SexprView.move_cursor_in_list ⟨e2, vw, vh, some (c ++ [i])⟩ 1
        = some ⟨e2, vw, vh, some (c ++ [(((i : Int) + 1) %
            ((PrettyExpr.len (PrettyExpr.replace_elements
              (xs.insertIdx (i + 1) (.Inline [])) par)) : Int)).toNat])⟩ :=
      SexprView.move_cursor_in_list_step e2 vw vh c i _ 1 h0
        (by omega) (by positivity)
    have hidx : ((((i : Int) + 1) %
          ((PrettyExpr.len (PrettyExpr.replace_elements
            (xs.insertIdx (i + 1) (.Inline [])) par)) : Int)).toNat) = i + 1 := by
      rw [hlenpar]
      rw [show ((i : Int) + 1) = ((i + 1 : Nat) : Int) from by push_cast; ring]
      rw [← Int.natCast_mod, Int.toNat_natCast]
      exact Nat.mod_eq_of_lt (by omega)
    have hunfold : SexprView.insert_element_after_cursor
        ⟨e, vw, vh, some (c ++ [i])⟩
        = some ⟨e2, vw, vh, some (c ++ [i + 1])⟩ := by
      simp only [SexprView.insert_element_after_cursor, List.getLast?_concat,
        List.dropLast_concat, hpar, Option.some_bind, hel]
      rw [if_pos (by omega : i + 1 ≤ xs.length)]
      simp only [hm]
      rw [hmv, hidx]
    have hval : PrettyExpr.get e2 (c ++ [i + 1]) = some (.Inline []) := by
      rw [hq [i + 1]]
      rw [PrettyExpr.get_cons_of_elements _ _ hel2]
      have hin : i + 1 < (xs.insertIdx (i + 1) (.Inline [] : PrettyExpr T)).length := by
        omega
      rw [List.get?_eq_get hin]
      have : (xs.insertIdx (i + 1) (.Inline [] : PrettyExpr T)).get ⟨i + 1, hin⟩
          = .Inline [] := by
        simpa using List.getElem_insertIdx_self xs (.Inline []) (i + 1) (by omega)
      rw [this]
      rfl
    exact ⟨⟨e2, vw, vh, some (c ++ [i + 1])⟩, par, xs,
      PrettyExpr.replace_elements (xs.insertIdx (i + 1) (.Inline [])) par,
      rfl, hel, hi, hunfold, h0, hel2, rfl, hval, rfl, rfl⟩
  · intro qv c i y hc hq
    obtain ⟨e, cur⟩ := qv
    cases hc
    simp only at hq
    rw [QSexprView.insert_element_after_cursor]
    simp only [List.dropLast_concat, hq]
    split
    next hl => rw [List.getLast?_concat] at hl; cases hl
    next c_elem hl =>
      rw [List.getLast?_concat] at hl
      injection hl with hl
      subst hl
      rw [if_pos (show QExpr.is_quotation (QExpr.Quotation y) = true from rfl)]

/-- Witness for C6 at concrete views: inserting after the first element of
`(a b)` yields `(a () b)` with the cursor on the placeholder; on the
spec-modelled quoted view `'(a)` with the cursor inside the quotation, the
operation retries with the target shifted outward one level. -/
theorem insert_element_after_cursor_spec_witness :
    (∃ v2 par xs par2,
      PrettyExpr.get (.Inline [(.Atom "a" : PrettyExpr Unit), .Atom "b"]) []
        = some par ∧
      PrettyExpr.elements par = some xs ∧ 0 < xs.length ∧
      SexprView.insert_element_after_cursor
          ⟨.Inline [.Atom "a", .Atom "b"], 5, 5, some [0]⟩ = some v2 ∧
      PrettyExpr.get v2.expr [] = some par2 ∧
      PrettyExpr.elements par2 = some (xs.insertIdx (0 + 1) (.Inline [])) ∧
      v2.cursor = some ([] ++ [0 + 1]) ∧
      PrettyExpr.get v2.expr ([] ++ [0 + 1]) = some (.Inline []) ∧
      v2.width = 5 ∧ v2.height = 5) ∧
    QSexprView.insert_element_after_cursor
        (⟨.Quotation (.Atom "a"), some [0]⟩ : QSexprView Unit)
      = QSexprView.insert_element_after_cursor ⟨.Quotation (.Atom "a"), some []⟩ :=
  ⟨insert_element_after_cursor_spec.1
      ⟨.Inline [.Atom "a", .Atom "b"], 5, 5, some [0]⟩ [] 0 (.Atom "a") rfl rfl,
    insert_element_after_cursor_spec.2
      (⟨.Quotation (.Atom "a"), some [0]⟩ : QSexprView Unit) [] 0 (.Atom "a")
      rfl rfl⟩

/-- Counterexample to C3 as stated: leaf text is emitted verbatim, so a list
that fits the width budget can still render with a newline in its output when
an atom's text itself contains one.  `(a\nb)` has inline width 5 ≤ 15, is kept
`Inline` by `prepare`, yet its rendered text contains a line-break
character. -/
theorem inline_fits_no_break_counterexample :
    PrettyExpr.inline_width (.Inline [(.Atom "a\nb" : PrettyExpr Unit)])
      = some 5 ∧
    5 ≤ PrettyFormatter.mkDefault.max_code_width ∧
    PrettyFormatter.mkDefault.prepare (.Inline [(.Atom "a\nb" : PrettyExpr Unit)])
      = some (.Inline [.Atom "a\nb"]) ∧
    '\n' ∈ (PrettyFormatter.mkDefault.write
      (.Inline [(.Atom "a\nb" : PrettyExpr Unit)]) 0).data :=
  ⟨rfl, by decide, rfl, by decide⟩
